import Mathlib

/-
Verification development for packz.py, a runtime dependency bundler.
Paths and module names are modelled as lists of characters (`Str`),
matching Python strings as sequences of Unicode code points.
Filesystem and OS effects (os.path.isfile, os.path.getsize,
os.path.realpath/expanduser) are passed in as oracle functions.
-/

namespace Packz

abbrev Str := List Char

/-- Lexicographic comparison on character lists, as Python compares strings:
shorter proper prefixes compare strictly less. -/
def pyStrLt : Str → Str → Bool
  | [], [] => false
  | [], _ :: _ => true
  | _ :: _, [] => false
  | a :: as, b :: bs => if a < b then true else if b < a then false else pyStrLt as bs

/-- Python max() over a nonempty sequence: fold keeping the current maximum,
preferring the earlier element on ties. -/
def listMax : Str → List Str → Str
  | a, [] => a
  | a, b :: t => listMax (if pyStrLt a b then b else a) t

/-- Python dict assignment d[k] = v: replace the value in place if the key is
present, otherwise append the new binding at the end. -/
def dictInsert : List (Str × Str) → Str → Str → List (Str × Str)
  | [], k, v => [(k, v)]
  | (k1, v1) :: rest, k, v =>
    if k1 = k then (k, v) :: rest else (k1, v1) :: dictInsert rest k v

/-- Python dict lookup d[k] on an association list. -/
def lookupStr : List (Str × Str) → Str → Option Str
  | [], _ => none
  | (k, v) :: rest, key => if k = key then some v else lookupStr rest key

/-- Predicate for characters other than the path separator. -/
def notSlash (c : Char) : Bool := !(c == '/')

/-- os.path.split for POSIX paths: split after the last slash; the head keeps
its trailing slashes only when it consists of slashes alone. -/
def splitPath (p : Str) : Str × Str :=
  let tl := (p.reverse.takeWhile notSlash).reverse
  let pre := (p.reverse.dropWhile notSlash).reverse
  let hd :=
    if pre.isEmpty || pre.all (fun c => c == '/') then pre
    else (pre.reverse.dropWhile (fun c => c == '/')).reverse
  (hd, tl)

/-- os.path.join for POSIX paths, two arguments. -/
def pathJoin (a b : Str) : Str :=
  match b with
  | '/' :: _ => b
  | _ =>
    if a.isEmpty then a ++ b
    else if a.reverse.head? == some '/' then a ++ b
    else a ++ '/' :: b

/-- Scan for the closing bracket of a glob character class; returns the
content before it and the remaining pattern after it. -/
def findClose : List Char → Option (List Char × List Char)
  | [] => none
  | ']' :: rest => some ([], rest)
  | c :: rest =>
    match findClose rest with
    | none => none
    | some (content, t) => some (c :: content, t)

/-- Parse a glob character class after the opening bracket, following
fnmatch.translate: an optional leading negation mark, then a closing bracket
as the first content character is literal; an unterminated class is literal. -/
def parseBracket : List Char → Option (Bool × List Char × List Char)
  | '!' :: ']' :: rest =>
    match findClose rest with
    | none => none
    | some (content, t) => some (true, ']' :: content, t)
  | '!' :: c :: rest =>
    match findClose (c :: rest) with
    | none => none
    | some (content, t) => some (true, content, t)
  | ']' :: rest =>
    match findClose rest with
    | none => none
    | some (content, t) => some (false, ']' :: content, t)
  | ps =>
    match findClose ps with
    | none => none
    | some (content, t) => some (false, content, t)

/-- Membership of a character in a glob class body: ranges a-b, with a
trailing dash taken literally, everything else compared literally. -/
def memBracket : List Char → Char → Bool
  | [], _ => false
  | [a], c => a == c
  | [a, '-'], c => a == c || '-' == c
  | a :: '-' :: b :: rest, c => (decide (a ≤ c) && decide (c ≤ b)) || memBracket rest c
  | a :: rest, c => a == c || memBracket rest c

/-- fnmatch-style glob matching of a whole name against a pattern:
star matches any run, question mark any single character, bracket classes
per memBracket, all other characters literally. The fuel argument only
bounds the recursion depth so the definition is structural: every step
strictly shrinks the combined pattern and string length, so a fuel of
their sum plus one can never run out. -/
def gmatch : Nat → List Char → List Char → Bool
  | 0, _, _ => false
  | _ + 1, [], [] => true
  | _ + 1, [], _ :: _ => false
  | fuel + 1, '*' :: ps, s =>
    gmatch fuel ps s ||
      (match s with
       | [] => false
       | _ :: s2 => gmatch fuel ('*' :: ps) s2)
  | _ + 1, '?' :: _, [] => false
  | fuel + 1, '?' :: ps, _ :: s2 => gmatch fuel ps s2
  | fuel + 1, '[' :: ps, s =>
    (match parseBracket ps with
     | none =>
       (match s with
        | [] => false
        | d :: s2 => ('[' == d) && gmatch fuel ps s2)
     | some (neg, content, rest) =>
       (match s with
        | [] => false
        | d :: s2 =>
          (if neg then !(memBracket content d) else memBracket content d) &&
            gmatch fuel rest s2))
  | _ + 1, _ :: _, [] => false
  | fuel + 1, c :: ps, d :: s2 => (c == d) && gmatch fuel ps s2

/-- fnmatch.fnmatch on POSIX (normcase is the identity there). -/
def fnmatchStr (name pat : Str) : Bool :=
  gmatch (pat.length + name.length + 1) pat name

/-- The PackRunner state relevant to classification: the two blacklists,
the installed-module index and the derived standard-library name set. -/
structure PackRunner where
  mod_blacklist : Option (List Str)
  file_blacklist : Option (List Str)
  installed : List (Str × Str)
  stdlib : List Str
deriving DecidableEq

/-- get_installed: fold the enumerated modules, each paired with the
expanded location its loader resolved to (none when resolution raised).
A location ending in the package initializer records its directory, a
plain .py file records the file itself, anything else is skipped. -/
def get_installed (mods : List (Str × Option Str)) : List (Str × Str) :=
  mods.foldl
    (fun paths nr =>
      match nr.2 with
      | none => paths
      | some file_name =>
        if ("__init__.py".data).isSuffixOf file_name then
          dictInsert paths nr.1 (splitPath file_name).1
        else if (".py".data).isSuffixOf file_name then
          dictInsert paths nr.1 file_name
        else paths)
    []

/-- The dict comprehension in which_module: root paths that are string
prefixes of the file name, mapped to their module names. -/
def startsDict (installed : List (Str × Str)) (file_name : Str) : List (Str × Str) :=
  installed.foldl
    (fun d mp => if mp.2.isPrefixOf file_name then dictInsert d mp.2 mp.1 else d)
    []

/-- which_module: build the prefix dict, take the lexicographically greatest
key (Python max over the dict keys) and return its module name and root path. -/
def which_module (installed : List (Str × Str)) (file_name : Str) : Option (Str × Str) :=
  match startsDict installed file_name with
  | [] => none
  | (k, v) :: rest =>
    match lookupStr ((k, v) :: rest) (listMax k (rest.map Prod.fst)) with
    | some m => some (m, listMax k (rest.map Prod.fst))
    | none => none

/-- The file-blacklist test at the top of path_map: the base name of the
file matched against every pattern. -/
def fileBlacklisted (r : PackRunner) (file_name : Str) : Bool :=
  match r.file_blacklist with
  | none => false
  | some bl => bl.any (fun p => fnmatchStr (splitPath file_name).2 p)

/-- The module-blacklist test in path_map. -/
def modBlacklisted (r : PackRunner) (m : Str) : Bool :=
  match r.mod_blacklist with
  | none => false
  | some mbl => mbl.contains m

/-- defaultdict(int) accumulation: self.totals[k] += v. -/
def addTotal : List (Str × Nat) → Str → Nat → List (Str × Nat)
  | [], k, v => [(k, v)]
  | (k1, v1) :: rest, k, v =>
    if k1 = k then (k1, v1 + v) :: rest else (k1, v1) :: addTotal rest k v

/-- Read an entry of the size ledger. -/
def lookupTotal : List (Str × Nat) → Str → Option Nat
  | [], _ => none
  | (k, v) :: rest, key => if k = key then some v else lookupTotal rest key

/-- path_map: blacklist check on the base name first; then the owning
module; standard-library and module-blacklist exclusions; an owned file is
the source path with the root's parent prefix clipped off (charging its
size to the ledger), an unowned file goes under the no_mod directory. -/
def path_map (r : PackRunner) (getsize : Str → Nat) (totals : List (Str × Nat))
    (file_name : Str) (no_mod : Str) : Option Str × List (Str × Nat) :=
  if fileBlacklisted r file_name then (none, totals)
  else
    match which_module r.installed file_name with
    | some (m, start) =>
      if r.stdlib.contains m then (none, totals)
      else if modBlacklisted r m then (none, totals)
      else
        (some (file_name.drop ((splitPath start).1.length + 1)),
          addTotal totals m (getsize file_name))
    | none => (some (pathJoin no_mod (splitPath file_name).2), totals)

/-- The generator loop of copy_list: map path_map over the files, threading
the size ledger and collecting (source, destination option) pairs. -/
def pmFold (r : PackRunner) (getsize : Str → Nat)
    (acc : List (Str × Option Str) × List (Str × Nat)) (fs : List Str) :
    List (Str × Option Str) × List (Str × Nat) :=
  fs.foldl
    (fun a f =>
      let pt := path_map r getsize a.2 f ("lib".data)
      (a.1 ++ [(f, pt.1)], pt.2))
    acc

/-- copy_list: reset the ledger, dedup the traced files and the open-handle
set difference, keep existing regular files, expand them, map destinations
(opened files first, then executed files) and drop the unmapped ones.
Python set iteration order is unspecified; dedup stands in for it. -/
def copy_list (r : PackRunner) (getsize : Str → Nat) (isfile : Str → Bool)
    (expand : Str → Str) (files lsofStart lsofStop : List Str) :
    List (Str × Str) × List (Str × Nat) :=
  let used := ((files.dedup).filter isfile).map expand
  let opened := (((lsofStop.dedup).filter (fun f => !(lsofStart.contains f))).filter isfile).map expand
  let p1 := pmFold r getsize ([], []) opened
  let p2 := pmFold r getsize p1 used
  (p2.1.filterMap (fun c => match c.2 with | some d => some (c.1, d) | none => none), p2.2)

/-- The destinations already materialized: file copies as a destination to
source map (shutil.copyfile overwrites in place), directory copies as a set. -/
structure CopyState where
  files : List (Str × Str)
  dirs : List Str
deriving DecidableEq

/-- One iteration of the copy loop: shutil.copytree raises FileExistsError
when its destination already exists, shutil.copyfile overwrites an existing
regular file silently but raises when the destination is a directory. -/
def copyStep (isdir : Str → Bool) (st : CopyState) (e : Str × Str) : Except Unit CopyState :=
  if isdir e.1 then
    if st.dirs.contains e.2 || (st.files.map Prod.fst).contains e.2 then Except.error ()
    else Except.ok ⟨st.files, e.2 :: st.dirs⟩
  else
    if st.dirs.contains e.2 then Except.error ()
    else Except.ok ⟨dictInsert st.files e.2 e.1, st.dirs⟩

/-- The copy loop over the copy list, starting from a fresh build directory;
an exception aborts the remaining copies. -/
def copyModel (isdir : Str → Bool) (copies : List (Str × Str)) : Except Unit CopyState :=
  copies.foldlM (fun st e => copyStep isdir st e) ⟨[], []⟩

/-- The raw result of running lsof in the shell pipeline: the lines lsof
writes to stdout (as byte lists) and its own exit status. -/
structure LsofWorld where
  lines : List (List Nat)
  exitCode : Nat

/-- The grep stage of the pipeline keeps lines starting with the bytes of
the n slash marker. -/
def grepStage (w : LsofWorld) : List (List Nat) :=
  w.lines.filter (fun l => ([110, 47] : List Nat).isPrefixOf l)

/-- The bytes the pipeline delivers on stdout: matching lines with the first
byte cut off, each terminated by a newline. -/
def pipelineBytes (w : LsofWorld) : List Nat :=
  ((grepStage w).map (fun l => l.drop 1 ++ [10])).flatten

/-- The exit status of a shell pipeline is the status of its last command;
cut succeeds on any input, so the status is 0 whatever lsof returned. -/
def pipelineExit (_ : LsofWorld) : Nat := 0

/-- subprocess.check_output: the stdout bytes when the command exits 0,
CalledProcessError otherwise. -/
def checkOutput (w : LsofWorld) : Except Unit (List Nat) :=
  if pipelineExit w = 0 then Except.ok (pipelineBytes w) else Except.error ()

/-- Continuation byte test for UTF-8. -/
def utf8Cont (b : Nat) : Bool := 128 ≤ b && b ≤ 191

/-- Strict UTF-8 decoding as bytes.decode performs it: rejects overlong
forms, surrogates, code points beyond the last plane and stray bytes. -/
def utf8Decode : List Nat → Option (List Char)
  | [] => some []
  | b :: rest =>
    if b ≤ 127 then
      (utf8Decode rest).map (fun cs => Char.ofNat b :: cs)
    else if 194 ≤ b && b ≤ 223 then
      match rest with
      | b1 :: r =>
        if utf8Cont b1 then
          (utf8Decode r).map (fun cs => Char.ofNat ((b - 192) * 64 + (b1 - 128)) :: cs)
        else none
      | [] => none
    else if 224 ≤ b && b ≤ 239 then
      match rest with
      | b1 :: b2 :: r =>
        let lowOk :=
          if b = 224 then 160 ≤ b1 && b1 ≤ 191
          else if b = 237 then 128 ≤ b1 && b1 ≤ 159
          else utf8Cont b1
        if lowOk && utf8Cont b2 then
          (utf8Decode r).map
            (fun cs => Char.ofNat (((b - 224) * 64 + (b1 - 128)) * 64 + (b2 - 128)) :: cs)
        else none
      | _ => none
    else if 240 ≤ b && b ≤ 244 then
      match rest with
      | b1 :: b2 :: b3 :: r =>
        let lowOk :=
          if b = 240 then 144 ≤ b1 && b1 ≤ 191
          else if b = 244 then 128 ≤ b1 && b1 ≤ 143
          else utf8Cont b1
        if lowOk && utf8Cont b2 && utf8Cont b3 then
          (utf8Decode r).map
            (fun cs =>
              Char.ofNat ((((b - 240) * 64 + (b1 - 128)) * 64 + (b2 - 128)) * 64 + (b3 - 128)) :: cs)
        else none
      | _ => none
    else none

/-- Python whitespace for str.split with no arguments. -/
def pySpace (c : Char) : Bool :=
  c == ' ' || c == '\t' || c == '\n' || c == '\r' || c == '\x0b' || c == '\x0c'

/-- str.split(): split on whitespace runs, dropping empty fields. -/
def pySplit (s : List Char) : List (List Char) :=
  (s.splitOnP pySpace).filter (fun w => !w.isEmpty)

/-- lsof(): run the pipeline through check_output, decode as UTF-8
(a failure there propagates as an exception), split into names and collect
them into a set. -/
def lsofModel (w : LsofWorld) : Except Unit (List Str) :=
  match checkOutput w with
  | Except.error e => Except.error e
  | Except.ok bytes =>
    match utf8Decode bytes with
    | none => Except.error ()
    | some s => Except.ok (pySplit s).dedup

/-- A string never compares strictly below one of its own prefixes. -/
theorem pyStrLt_self_append (a t : Str) : pyStrLt (a ++ t) a = false := by
  induction a with
  | nil => cases t <;> rfl
  | cons c as ih => simp [pyStrLt, ih]

/-- A proper prefix compares strictly below its extension. -/
theorem pyStrLt_append_cons (a : Str) (c : Char) (t : Str) :
    pyStrLt a (a ++ c :: t) = true := by
  induction a with
  | nil => rfl
  | cons d as ih => simp [pyStrLt, ih]

/-- Two prefixes of a common string are comparable as prefixes. -/
theorem prefix_comparable {a b s : Str} (ha : a <+: s) (hb : b <+: s) :
    a <+: b ∨ b <+: a :=
  List.prefix_or_prefix_of_prefix ha hb

/-- The larger of two prefixes of s under pyStrLt is the longer one. -/
theorem max2_length {a b s : Str} (ha : a <+: s) (hb : b <+: s) :
    a.length ≤ (if pyStrLt a b then b else a).length ∧
      b.length ≤ (if pyStrLt a b then b else a).length := by
  rcases prefix_comparable ha hb with h | h
  · rcases h with ⟨t, rfl⟩
    cases t with
    | nil => simp
    | cons c t2 => rw [pyStrLt_append_cons]; simp
  · rcases h with ⟨t, rfl⟩
    cases t with
    | nil => simp
    | cons c t2 => rw [pyStrLt_self_append]; simp

/-- The fold result of listMax is the seed or one of the list elements. -/
theorem listMax_mem (a : Str) (l : List Str) : listMax a l = a ∨ listMax a l ∈ l := by
  induction l generalizing a with
  | nil => left; rfl
  | cons b t ih =>
    rcases ih (if pyStrLt a b then b else a) with h | h
    · rw [listMax, h]
      split
      · right; exact List.mem_cons_self b t
      · left; rfl
    · right; exact List.mem_cons_of_mem b h

/-- Over a family of prefixes of one string, listMax has maximal length. -/
theorem listMax_length_ge (l : List Str) (a s : Str) (ha : a <+: s)
    (hl : ∀ b ∈ l, b <+: s) :
    ∀ b, b = a ∨ b ∈ l → b.length ≤ (listMax a l).length := by
  induction l generalizing a with
  | nil =>
    intro b hb
    rcases hb with rfl | h
    · exact Nat.le_refl _
    · cases h
  | cons x t ih =>
    have hx : x <+: s := hl x (List.mem_cons_self x t)
    have hmax := max2_length ha hx
    have ha2 : (if pyStrLt a x then x else a) <+: s := by
      split
      · exact hx
      · exact ha
    have ht : ∀ b ∈ t, b <+: s := fun b hb => hl b (List.mem_cons_of_mem x hb)
    intro b hb
    rcases hb with rfl | hbx
    · calc b.length ≤ (if pyStrLt b x then x else b).length := hmax.1
        _ ≤ (listMax (if pyStrLt b x then x else b) t).length :=
          ih _ ha2 ht _ (Or.inl rfl)
    · rcases List.mem_cons.mp hbx with rfl | hbt
      · calc b.length ≤ (if pyStrLt a b then b else a).length := hmax.2
          _ ≤ (listMax (if pyStrLt a b then b else a) t).length :=
            ih _ ha2 ht _ (Or.inl rfl)
      · exact ih _ ha2 ht b (Or.inr hbt)

/-- Membership in a dict after assignment: the new binding or an old one
with a different key. -/
theorem mem_dictInsert {d : List (Str × Str)} {k0 v0 k v : Str}
    (h : (k, v) ∈ dictInsert d k0 v0) :
    (k = k0 ∧ v = v0) ∨ (k, v) ∈ d := by
  induction d with
  | nil =>
    simp [dictInsert] at h
    exact Or.inl h
  | cons p rest ih =>
    rcases p with ⟨k1, v1⟩
    rw [dictInsert] at h
    split at h
    · rcases List.mem_cons.mp h with h1 | h1
      · simp at h1
        exact Or.inl h1
      · right; exact List.mem_cons_of_mem _ h1
    · rcases List.mem_cons.mp h with h1 | h1
      · right; rw [h1]; exact List.mem_cons_self _ _
      · rcases ih h1 with h2 | h2
        · left; exact h2
        · right; exact List.mem_cons_of_mem _ h2

/-- Keys survive a dict assignment. -/
theorem keys_dictInsert_super {d : List (Str × Str)} {k0 v0 : Str} {k : Str}
    (h : k ∈ d.map Prod.fst) : k ∈ (dictInsert d k0 v0).map Prod.fst := by
  induction d with
  | nil => cases h
  | cons p rest ih =>
    rcases p with ⟨k1, v1⟩
    rw [dictInsert]
    simp only [List.map_cons, List.mem_cons] at h
    split
    next heq =>
      subst heq
      simp only [List.map_cons, List.mem_cons]
      exact h
    · simp only [List.map_cons, List.mem_cons]
      rcases h with h1 | h1
      · exact Or.inl h1
      · exact Or.inr (ih h1)

/-- The assigned key is a key afterwards. -/
theorem key_mem_dictInsert (d : List (Str × Str)) (k0 v0 : Str) :
    k0 ∈ (dictInsert d k0 v0).map Prod.fst := by
  induction d with
  | nil => simp [dictInsert]
  | cons p rest ih =>
    rcases p with ⟨k1, v1⟩
    rw [dictInsert]
    split
    · simp
    · simp only [List.map_cons, List.mem_cons]
      exact Or.inr ih

/-- A successful lookup comes from a binding in the dict. -/
theorem lookupStr_mem {d : List (Str × Str)} {k v : Str}
    (h : lookupStr d k = some v) : (k, v) ∈ d := by
  induction d with
  | nil => cases h
  | cons p rest ih =>
    rcases p with ⟨k1, v1⟩
    rw [lookupStr] at h
    split at h
    next heq =>
      cases h
      subst heq
      exact List.mem_cons_self _ _
    · exact List.mem_cons_of_mem _ (ih h)

/-- Every binding of the prefix dict is a root that is a string prefix of
the file and an entry of the installed index. -/
theorem startsDict_mem {installed : List (Str × Str)} {fn k v : Str}
    (h : (k, v) ∈ startsDict installed fn) :
    k <+: fn ∧ (v, k) ∈ installed := by
  suffices H : ∀ (l : List (Str × Str)) (d : List (Str × Str)),
      (k, v) ∈ l.foldl
        (fun d mp => if mp.2.isPrefixOf fn then dictInsert d mp.2 mp.1 else d) d →
      (k, v) ∈ d ∨ (k <+: fn ∧ (v, k) ∈ l) by
    rcases H installed [] h with h1 | h1
    · cases h1
    · exact h1
  intro l
  induction l with
  | nil => intro d hd; exact Or.inl hd
  | cons mp rest ih =>
    obtain ⟨m1, p1⟩ := mp
    intro d hd
    rw [List.foldl_cons] at hd
    rcases ih _ hd with h1 | h1
    · split at h1
      next hpre =>
        rcases mem_dictInsert h1 with ⟨h2a, h2b⟩ | h2
        · subst h2a
          subst h2b
          right
          have hpre2 := List.isPrefixOf_iff_prefix.mp hpre
          exact ⟨hpre2, List.mem_cons_self _ _⟩
        · exact Or.inl h2
      · exact Or.inl h1
    · right; exact ⟨h1.1, List.mem_cons_of_mem _ h1.2⟩

/-- Every installed root that is a string prefix of the file ends up as a
key of the prefix dict. -/
theorem startsDict_covers {installed : List (Str × Str)} {fn m p : Str}
    (hmem : (m, p) ∈ installed) (hpre : p.isPrefixOf fn = true) :
    p ∈ (startsDict installed fn).map Prod.fst := by
  suffices H : ∀ (l : List (Str × Str)) (d : List (Str × Str)),
      (m, p) ∈ l ∨ p ∈ d.map Prod.fst →
      p ∈ (l.foldl
        (fun d mp => if mp.2.isPrefixOf fn then dictInsert d mp.2 mp.1 else d) d).map Prod.fst by
    exact H installed [] (Or.inl hmem)
  intro l
  induction l with
  | nil =>
    intro d hd
    rcases hd with h1 | h1
    · cases h1
    · exact h1
  | cons mp rest ih =>
    obtain ⟨m1, p1⟩ := mp
    intro d hd
    rw [List.foldl_cons]
    rcases hd with h1 | h1
    · rcases List.mem_cons.mp h1 with h2 | h2
      · have hm : m1 = m ∧ p1 = p := by simpa using h2.symm
        obtain ⟨rfl, rfl⟩ := hm
        apply ih
        right
        simp only [hpre, if_true]
        exact key_mem_dictInsert d _ _
      · exact ih _ (Or.inl h2)
    · apply ih
      right
      split
      · exact keys_dictInsert_super h1
      · exact h1

/-- Soundness of which_module: a successful answer names an installed entry
whose root is a string prefix of the file, of maximal length among all
installed roots that are string prefixes of the file. -/
theorem which_module_sound {installed : List (Str × Str)} {fn m s : Str}
    (h : which_module installed fn = some (m, s)) :
    (m, s) ∈ installed ∧ s <+: fn ∧
      ∀ m2 p, (m2, p) ∈ installed → p.isPrefixOf fn = true → p.length ≤ s.length := by
  rw [which_module] at h
  split at h
  · cases h
  next k v rest heq =>
    split at h
    next mm hlook =>
      have hinj := Option.some.inj h
      obtain ⟨hm, hs⟩ : mm = m ∧ listMax k (rest.map Prod.fst) = s :=
        ⟨congrArg Prod.fst hinj, congrArg Prod.snd hinj⟩
      subst hm
      have hall : ∀ b ∈ ((k, v) :: rest).map Prod.fst, b <+: fn := by
        intro b hb
        rcases List.mem_map.mp hb with ⟨⟨b1, b2⟩, hmem2, rfl⟩
        exact (startsDict_mem (heq ▸ hmem2)).1
      have hk : k <+: fn := hall k (by simp)
      have hrest : ∀ b ∈ rest.map Prod.fst, b <+: fn := by
        intro b hb
        exact hall b (by simp [hb])
      have hmem : (s, mm) ∈ (k, v) :: rest := by
        rw [← hs]
        exact lookupStr_mem hlook
      have hsd : (s, mm) ∈ startsDict installed fn := heq ▸ hmem
      have hsp := startsDict_mem hsd
      refine ⟨hsp.2, hsp.1, ?_⟩
      intro m2 p hp hpre
      have hkey : p ∈ (startsDict installed fn).map Prod.fst := startsDict_covers hp hpre
      rw [heq] at hkey
      simp only [List.map_cons, List.mem_cons] at hkey
      rw [← hs]
      rcases hkey with h1 | h1
      · exact listMax_length_ge _ k fn hk hrest p (Or.inl h1)
      · exact listMax_length_ge _ k fn hk hrest p (Or.inr h1)
    · cases h

/-- C3: which_module picks, among all installed units whose root_path is a
string prefix of the file, one whose root is the longest such prefix; the
lexicographic max over the matching prefix strings coincides with the
longest-prefix rule. -/
theorem which_module_longest_prefix_rule (installed : List (Str × Str)) (fn m s : Str)
    (h : which_module installed fn = some (m, s)) :
    (m, s) ∈ installed ∧ s <+: fn ∧
      ∀ m2 p, (m2, p) ∈ installed → p.isPrefixOf fn = true → p.length ≤ s.length :=
  which_module_sound h

/-- Witness for C3 at the spec example: pkg at /a/pkg and pkg.sub at
/a/pkg/sub, with the file /a/pkg/sub/x.py attributed to pkg.sub. -/
theorem which_module_longest_prefix_rule_witness :
    ("pkg.sub".data, "/a/pkg/sub".data) ∈
        [("pkg".data, "/a/pkg".data), ("pkg.sub".data, "/a/pkg/sub".data)] ∧
      "/a/pkg/sub".data <+: "/a/pkg/sub/x.py".data ∧
      ∀ m2 p,
        (m2, p) ∈ [("pkg".data, "/a/pkg".data), ("pkg.sub".data, "/a/pkg/sub".data)] →
        p.isPrefixOf ("/a/pkg/sub/x.py".data) = true →
        p.length ≤ ("/a/pkg/sub".data).length :=
  which_module_longest_prefix_rule _ _ _ _ (by decide)

/-- C9: ownership is raw string prefix with no separator check: the root
/a/pkg claims /a/pkgextra/x.py although "/a/pkg/" is not a prefix of it. -/
theorem which_module_no_separator_check :
    which_module [("pkg".data, "/a/pkg".data)] "/a/pkgextra/x.py".data =
        some ("pkg".data, "/a/pkg".data) ∧
      ("/a/pkg/".data).isPrefixOf ("/a/pkgextra/x.py".data) = false := by decide

/-- The two parts of splitPath reassemble to the argument before the head
is stripped of trailing slashes. -/
theorem splitPath_decomp (p : Str) :
    (p.reverse.dropWhile notSlash).reverse ++ (p.reverse.takeWhile notSlash).reverse = p := by
  rw [← List.reverse_append, List.takeWhile_append_dropWhile, List.reverse_reverse]

/-- The tail component of splitPath, unfolded. -/
theorem splitPath_snd (p : Str) :
    (splitPath p).2 = (p.reverse.takeWhile notSlash).reverse := rfl

/-- The head component of splitPath, unfolded. -/
theorem splitPath_fst_def (p : Str) :
    (splitPath p).1 =
      if ((p.reverse.dropWhile notSlash).reverse).isEmpty ||
          ((p.reverse.dropWhile notSlash).reverse).all (fun c => c == '/') then
        (p.reverse.dropWhile notSlash).reverse
      else (((p.reverse.dropWhile notSlash).reverse).reverse.dropWhile
        (fun c => c == '/')).reverse := rfl

/-- The head of a dropWhile result falsifies the predicate. -/
theorem dropWhile_head_false {p : Char → Bool} :
    ∀ (l : List Char) {c : Char} {r : List Char}, l.dropWhile p = c :: r → p c = false := by
  intro l
  induction l with
  | nil => intro c r h; cases h
  | cons a t ih =>
    intro c r h
    rw [List.dropWhile_cons] at h
    split at h
    · exact ih h
    next hpa =>
      cases h
      simpa using hpa

/-- The tail part of splitPath contains no slash. -/
theorem splitPath_tail_no_slash (p : Str) :
    ∀ c ∈ (splitPath p).2, notSlash c = true := by
  intro c hc
  rw [splitPath_snd] at hc
  simp only [List.mem_reverse] at hc
  exact List.mem_takeWhile_imp hc

/-- When the path is nonempty and does not end in a slash, the tail part of
splitPath is nonempty. -/
theorem splitPath_tail_ne {p : Str} (h0 : p ≠ []) (hl : p.reverse.head? ≠ some '/') :
    (splitPath p).2 ≠ [] := by
  rw [splitPath_snd]
  intro hcon
  have htw : p.reverse.takeWhile notSlash = [] := by
    simpa using congrArg List.reverse hcon
  cases hrev : p.reverse with
  | nil =>
    exact h0 (by simpa using congrArg List.reverse hrev)
  | cons c r =>
    rw [hrev, List.takeWhile_cons] at htw
    split at htw
    · cases htw
    next hns =>
      apply hl
      rw [hrev]
      have hcs : c = '/' := by
        by_contra hcne
        exact hns (by simp [notSlash, hcne])
      rw [hcs]
      rfl

/-- The pre part of splitPath, when nonempty, starts (in reverse) with a
slash: the original prefix ends with the separator. -/
theorem splitPath_pre_last {p : Str}
    (h : (p.reverse.dropWhile notSlash).reverse ≠ []) :
    ∃ r, p.reverse.dropWhile notSlash = '/' :: r := by
  cases hdw : p.reverse.dropWhile notSlash with
  | nil => exact absurd (by rw [hdw]; rfl) h
  | cons c r =>
    have hc := dropWhile_head_false _ hdw
    have hcs : c = '/' := by
      by_contra hcne
      rw [notSlash] at hc
      simp [hcne] at hc
    exact ⟨r, hcs ▸ rfl⟩

/-- Dropping elements never lengthens a list. -/
theorem length_dropWhile_le (p : Char → Bool) (l : List Char) :
    (l.dropWhile p).length ≤ l.length := by
  induction l with
  | nil => simp
  | cons a t ih =>
    rw [List.dropWhile_cons]
    split
    · exact Nat.le_succ_of_le ih
    · simp

/-- The clip offset used in path_map stays inside a root path that is
nonempty and does not end in a slash. -/
theorem splitPath_head_bound {s : Str} (h0 : s ≠ []) (hl : s.reverse.head? ≠ some '/') :
    (splitPath s).1.length + 1 ≤ s.length := by
  have htl := splitPath_tail_ne h0 hl
  have hlen : (s.reverse.dropWhile notSlash).reverse.length +
      (s.reverse.takeWhile notSlash).reverse.length = s.length := by
    simpa using congrArg List.length (splitPath_decomp s)
  have htl1 : 1 ≤ (s.reverse.takeWhile notSlash).reverse.length := by
    rcases Nat.eq_zero_or_pos ((s.reverse.takeWhile notSlash).reverse.length) with hz | hp2
    · exact absurd (by rw [splitPath_snd]; exact List.length_eq_zero.mp hz) htl
    · exact hp2
  rw [splitPath_fst_def]
  split
  next hcase => omega
  next hcase =>
    have hpre_ne : (s.reverse.dropWhile notSlash).reverse ≠ [] := by
      intro hz
      apply hcase
      rw [hz]
      simp
    obtain ⟨r, hr⟩ := splitPath_pre_last hpre_ne
    rw [List.reverse_reverse, hr, List.dropWhile_cons]
    simp only [beq_self_eq_true, if_true]
    have hle := length_dropWhile_le (fun c => c == '/') r
    have hrlen : (s.reverse.dropWhile notSlash).length = r.length + 1 := by
      rw [hr]
      rfl
    simp only [List.length_reverse] at hlen htl1 ⊢
    omega

/-- Taking at most the shared prefix of an extension gives the same result
on the prefix itself. -/
theorem take_eq_on_shared_root {s fn : Str} {k : Nat} (h : s <+: fn) (hk : k ≤ s.length) :
    fn.take k = s.take k := by
  obtain ⟨t, rfl⟩ := h
  rw [List.take_append_eq_append_take]
  have : k - s.length = 0 := Nat.sub_eq_zero_of_le hk
  rw [this]
  simp

/-- In the owned, non-excluded branch, the destination path_map returns is
the file path with the root's parent prefix clipped off. -/
theorem path_map_owned_dest {r : PackRunner} {gs : Str → Nat}
    {totals : List (Str × Nat)} {fn m s d no_mod : Str}
    (hw : which_module r.installed fn = some (m, s))
    (hp : (path_map r gs totals fn no_mod).1 = some d) :
    d = fn.drop ((splitPath s).1.length + 1) := by
  rw [path_map] at hp
  split at hp
  · cases hp
  · rw [hw] at hp
    simp only at hp
    split at hp
    · cases hp
    · split at hp
      · cases hp
      · exact (Option.some.inj hp).symm

/-- C2 counterexample: two distinct unowned files with the same base name
both map to the catch-all destination lib/a.txt under an empty index. -/
theorem path_map_catchall_collision :
    (path_map ⟨none, none, [], []⟩ (fun _ => 0) [] "/x/a.txt".data ("lib".data)).1 =
        some ("lib/a.txt".data) ∧
      (path_map ⟨none, none, [], []⟩ (fun _ => 0) [] "/y/a.txt".data ("lib".data)).1 =
        some ("lib/a.txt".data) ∧
      "/x/a.txt".data ≠ ("/y/a.txt".data) := by decide

/-- C2 amended: two distinct sources owned by the same root path, when the
root is nonempty and does not end in a slash, receive distinct destinations;
the uniqueness claim fails only across different roots or for unowned files. -/
theorem path_map_dest_injective_same_root (r : PackRunner) (gs : Str → Nat)
    (fn1 fn2 m1 m2 s d1 d2 : Str)
    (h1 : which_module r.installed fn1 = some (m1, s))
    (h2 : which_module r.installed fn2 = some (m2, s))
    (hp1 : (path_map r gs [] fn1 ("lib".data)).1 = some d1)
    (hp2 : (path_map r gs [] fn2 ("lib".data)).1 = some d2)
    (hs0 : s ≠ [])
    (hsl : s.reverse.head? ≠ some '/')
    (hne : fn1 ≠ fn2) : d1 ≠ d2 := by
  have hk := splitPath_head_bound hs0 hsl
  have hd1 := path_map_owned_dest h1 hp1
  have hd2 := path_map_owned_dest h2 hp2
  have hpre1 : s <+: fn1 := (which_module_sound h1).2.1
  have hpre2 : s <+: fn2 := (which_module_sound h2).2.1
  intro heq
  apply hne
  have ht1 : fn1.take ((splitPath s).1.length + 1) = s.take ((splitPath s).1.length + 1) :=
    take_eq_on_shared_root hpre1 hk
  have ht2 : fn2.take ((splitPath s).1.length + 1) = s.take ((splitPath s).1.length + 1) :=
    take_eq_on_shared_root hpre2 hk
  calc fn1 = fn1.take ((splitPath s).1.length + 1) ++ fn1.drop ((splitPath s).1.length + 1) :=
        (List.take_append_drop _ _).symm
    _ = fn2.take ((splitPath s).1.length + 1) ++ fn2.drop ((splitPath s).1.length + 1) := by
        rw [ht1, ht2, ← hd1, ← hd2, heq]
    _ = fn2 := List.take_append_drop _ _

/-- Witness for the amended C2: two files under the pkg root map to the
distinct destinations pkg/x.py and pkg/y.py. -/
theorem path_map_dest_injective_same_root_witness :
    ("pkg/x.py".data : Str) ≠ ("pkg/y.py".data) :=
  path_map_dest_injective_same_root
    ⟨none, none, [("pkg".data, "/a/pkg".data)], []⟩ (fun _ => 0)
    "/a/pkg/x.py".data ("/a/pkg/y.py".data) "pkg".data ("pkg".data) "/a/pkg".data
    "pkg/x.py".data ("pkg/y.py".data)
    (by decide) (by decide) (by decide) (by decide) (by decide) (by decide) (by decide)

/-- takeWhile passes over a block that satisfies the predicate throughout. -/
theorem takeWhile_append_all {p : Char → Bool} {a : Str} (b : Str)
    (h : ∀ c ∈ a, p c = true) :
    (a ++ b).takeWhile p = a ++ b.takeWhile p := by
  induction a with
  | nil => simp
  | cons x t ih =>
    have hx : p x = true := h x (List.mem_cons_self x t)
    have ht : ∀ c ∈ t, p c = true := fun c hc => h c (List.mem_cons_of_mem x hc)
    rw [List.cons_append, List.takeWhile_cons, if_pos hx, ih ht, List.cons_append]

/-- C5 counterexample: for the unit pkg rooted at /a/pkg, the destination of
/a/pkg/x.py is pkg/x.py, whose first path segment is basename(R) = pkg and
not basename(dirname(R)) = a. -/
theorem path_map_first_segment_cx :
    (path_map ⟨none, none, [("pkg".data, "/a/pkg".data)], []⟩ (fun _ => 0) []
        "/a/pkg/x.py".data ("lib".data)).1 = some ("pkg/x.py".data) ∧
      (splitPath (splitPath ("/a/pkg".data)).1).2 = "a".data ∧
      ("pkg/x.py".data).takeWhile notSlash = "pkg".data ∧
      ("pkg".data : Str) ≠ ("a".data) := by decide

/-- C5 amended: when the owning root R decomposes as dirname(R)/basename(R)
and the file lies under R at a path-segment boundary, the destination starts
with basename(R) — the unit's own directory name, one level deep — rather
than basename(dirname(R)). -/
theorem path_map_dest_first_segment (r : PackRunner) (gs : Str → Nat)
    (fn m R d rest : Str)
    (hw : which_module r.installed fn = some (m, R))
    (hp : (path_map r gs [] fn ("lib".data)).1 = some d)
    (hnorm : (splitPath R).1 ++ '/' :: (splitPath R).2 = R)
    (hunder : fn = R ++ rest)
    (hrest : rest = [] ∨ rest.head? = some '/') :
    d.takeWhile notSlash = (splitPath R).2 := by
  have hd := path_map_owned_dest hw hp
  have hfn : fn = (splitPath R).1 ++ '/' :: ((splitPath R).2 ++ rest) := by
    rw [hunder]
    conv_lhs => rw [← hnorm]
    simp [List.append_assoc]
  have hdrop : fn.drop ((splitPath R).1.length + 1) = (splitPath R).2 ++ rest := by
    rw [hfn, List.drop_append]
    rfl
  rw [hd, hdrop, takeWhile_append_all rest (splitPath_tail_no_slash R)]
  rcases hrest with hr0 | hr0
  · rw [hr0]
    simp
  · cases rest with
    | nil => simp
    | cons c r2 =>
      have hc : c = '/' := by simpa using hr0
      rw [hc, List.takeWhile_cons]
      simp [notSlash]

/-- Witness for the amended C5 at pkg rooted at /a/pkg and the file
/a/pkg/x.py mapped to pkg/x.py. -/
theorem path_map_dest_first_segment_witness :
    ("pkg/x.py".data).takeWhile notSlash = (splitPath ("/a/pkg".data)).2 :=
  path_map_dest_first_segment ⟨none, none, [("pkg".data, "/a/pkg".data)], []⟩ (fun _ => 0)
    "/a/pkg/x.py".data ("pkg".data) "/a/pkg".data ("pkg/x.py".data) "/x.py".data
    (by decide) (by decide) (by decide) (by decide) (Or.inr (by decide))

/-- C8: when the base name of the file matches a pattern of the file
blacklist, path_map returns None and leaves the ledger alone, whatever the
index, built-in set and module blacklist hold. -/
theorem path_map_file_blacklist_short_circuit (r : PackRunner) (gs : Str → Nat)
    (totals : List (Str × Nat)) (fn no_mod : Str) (bl : List Str)
    (hbl : r.file_blacklist = some bl)
    (hm : bl.any (fun p => fnmatchStr (splitPath fn).2 p) = true) :
    path_map r gs totals fn no_mod = (none, totals) := by
  have hfb : fileBlacklisted r fn = true := by
    rw [fileBlacklisted, hbl]
    exact hm
  rw [path_map, if_pos hfb]

/-- Witness for C8: with file_blacklist containing the secret pattern, the
file config_secret.json is excluded although an installed unit owns it. -/
theorem path_map_file_blacklist_short_circuit_witness :
    path_map ⟨none, some ["*secret*".data], [("app".data, "/a/app".data)], []⟩
        (fun _ => 0) [] "/a/app/config_secret.json".data ("lib".data) = (none, []) :=
  path_map_file_blacklist_short_circuit
    ⟨none, some ["*secret*".data], [("app".data, "/a/app".data)], []⟩
    (fun _ => 0) [] "/a/app/config_secret.json".data ("lib".data) ["*secret*".data]
    rfl (by decide)

/-- The ledger accumulation touches no key besides the charged one. -/
theorem lookupTotal_addTotal_ne {t : List (Str × Nat)} {m k : Str} {n : Nat}
    (h : k ≠ m) : lookupTotal (addTotal t m n) k = lookupTotal t k := by
  induction t with
  | nil =>
    simp only [addTotal, lookupTotal]
    rw [if_neg (fun hc : m = k => h hc.symm)]
  | cons p rest ih =>
    rcases p with ⟨k1, v1⟩
    rw [addTotal]
    split
    next heq =>
      have hne : ¬ (k1 = k) := fun hc => h (hc ▸ heq)
      simp only [lookupTotal, if_neg hne]
    · simp only [lookupTotal]
      split
      · rfl
      · exact ih

/-- C10: path_map charges the size ledger only in the owned, bundled branch,
and there only at the owning unit's key; every excluded or unowned branch
leaves the ledger untouched. -/
theorem path_map_totals_frame (r : PackRunner) (gs : Str → Nat)
    (totals : List (Str × Nat)) (fn no_mod : Str) :
    (∀ m s, which_module r.installed fn = some (m, s) →
        fileBlacklisted r fn = false → r.stdlib.contains m = false →
        modBlacklisted r m = false →
        (path_map r gs totals fn no_mod).2 = addTotal totals m (gs fn) ∧
          ∀ k, k ≠ m →
            lookupTotal (path_map r gs totals fn no_mod).2 k = lookupTotal totals k) ∧
    ((fileBlacklisted r fn = true ∨ which_module r.installed fn = none ∨
        (∃ m s, which_module r.installed fn = some (m, s) ∧
          (r.stdlib.contains m = true ∨ modBlacklisted r m = true))) →
      (path_map r gs totals fn no_mod).2 = totals) := by
  constructor
  · intro m s hw hfb hsc hmb
    have hsc2 : m ∉ r.stdlib := by simpa using hsc
    have heval : path_map r gs totals fn no_mod =
        (some (fn.drop ((splitPath s).1.length + 1)), addTotal totals m (gs fn)) := by
      simp [path_map, hfb, hw, hsc2, hmb]
    rw [heval]
    exact ⟨rfl, fun k hk => lookupTotal_addTotal_ne hk⟩
  · intro hcase
    rcases hcase with hfb | hnone | ⟨m, s, hw, hex⟩
    · simp [path_map, hfb]
    · cases hfb3 : fileBlacklisted r fn with
      | true => simp [path_map, hfb3]
      | false => simp [path_map, hfb3, hnone]
    · cases hfb3 : fileBlacklisted r fn with
      | true => simp [path_map, hfb3]
      | false =>
        rcases hex with hsc | hmb
        · have hsc2 : m ∈ r.stdlib := by simpa using hsc
          simp [path_map, hfb3, hw, hsc2]
        · cases hsc3 : r.stdlib.contains m with
          | true =>
            have hsc2 : m ∈ r.stdlib := by simpa using hsc3
            simp [path_map, hfb3, hw, hsc2]
          | false =>
            have hsc2 : m ∉ r.stdlib := by simpa using hsc3
            simp [path_map, hfb3, hw, hsc2, hmb]

/-- Witness for C10: a bundled file charges only its own unit's ledger key;
the other key is untouched. -/
theorem path_map_totals_frame_witness :
    lookupTotal
        (path_map ⟨none, none, [("pkg".data, "/a/pkg".data)], []⟩ (fun _ => 7)
          [("other".data, 5)] "/a/pkg/x.py".data ("lib".data)).2 ("other".data) =
      lookupTotal [("other".data, 5)] "other".data :=
  ((path_map_totals_frame ⟨none, none, [("pkg".data, "/a/pkg".data)], []⟩ (fun _ => 7)
      [("other".data, 5)] "/a/pkg/x.py".data ("lib".data)).1 ("pkg".data) "/a/pkg".data
        (by decide) (by decide) (by decide) (by decide)).2 ("other".data) (by decide)

/-- C4 counterexample: two distinct file sources with the same destination
pass through the copy loop with no error; the second copy silently
overwrites the first, and the final state records the later source. -/
theorem copy_overwrite_cx :
    copyModel (fun _ => false)
        [("/x/a".data, "lib/a".data), ("/y/a".data, "lib/a".data)] =
      Except.ok ⟨[("lib/a".data, "/y/a".data)], []⟩ := rfl

/-- C4 amended: on an exact destination collision the copy loop raises only
when the later source is a directory (copytree); when it is a file, copyfile
silently overwrites and the run reports success with the later source. -/
theorem copy_collision_behavior (isdir : Str → Bool) (s1 s2 d : Str)
    (h1 : isdir s1 = false) :
    (isdir s2 = true → copyModel isdir [(s1, d), (s2, d)] = Except.error ()) ∧
    (isdir s2 = false → copyModel isdir [(s1, d), (s2, d)] = Except.ok ⟨[(d, s2)], []⟩) := by
  have hbind : ∀ (x : CopyState) (f : CopyState → Except Unit CopyState),
      (Except.ok x : Except Unit CopyState) >>= f = f x := fun x f => rfl
  constructor
  · intro h2
    simp [copyModel, List.foldlM, copyStep, h1, h2, dictInsert, hbind]
  · intro h2
    simp [copyModel, List.foldlM, copyStep, h1, h2, dictInsert, hbind]

/-- Witness for the amended C4: a file copy onto lib/a followed by a
directory copy onto lib/a errors; a second file copy instead overwrites. -/
theorem copy_collision_behavior_witness :
    (copyModel (fun s => s == "/y/dir".data)
        [("/x/a".data, "lib/a".data), ("/y/dir".data, "lib/a".data)] =
      Except.error ()) ∧
    ((fun s => s == "/y/dir".data) "/x/a".data = false) :=
  ⟨(copy_collision_behavior (fun s => s == "/y/dir".data) "/x/a".data ("/y/dir".data)
      "lib/a".data (by decide)).1 (by decide), by decide⟩

/-- Lookup of a freshly assigned key returns the assigned value. -/
theorem lookup_dictInsert_self (d : List (Str × Str)) (k v : Str) :
    lookupStr (dictInsert d k v) k = some v := by
  induction d with
  | nil => simp [dictInsert, lookupStr]
  | cons p rest ih =>
    rcases p with ⟨k1, v1⟩
    rw [dictInsert]
    split
    next heq =>
      simp [lookupStr]
    next hne =>
      rw [lookupStr, if_neg hne]
      exact ih

/-- Assigning one key leaves lookups of other keys unchanged. -/
theorem lookup_dictInsert_ne {d : List (Str × Str)} {k0 v0 key : Str}
    (hne : k0 ≠ key) : lookupStr (dictInsert d k0 v0) key = lookupStr d key := by
  induction d with
  | nil =>
    simp only [dictInsert, lookupStr]
    rw [if_neg hne]
  | cons p rest ih =>
    rcases p with ⟨k1, v1⟩
    rw [dictInsert]
    split
    next heq =>
      simp only [lookupStr]
      rw [if_neg (heq ▸ hne), if_neg (fun hc : k1 = key => (heq ▸ hne : k1 ≠ key) hc)]
    · simp only [lookupStr]
      split
      · rfl
      · exact ih

/-- Entries whose names differ from the looked-up name leave the
get_installed fold invisible to that lookup. -/
theorem get_installed_fold_frame (l : List (Str × Option Str))
    (acc : List (Str × Str)) (name : Str) (h : ∀ p ∈ l, p.1 ≠ name) :
    lookupStr
        (l.foldl
          (fun paths nr =>
            match nr.2 with
            | none => paths
            | some file_name =>
              if ("__init__.py".data).isSuffixOf file_name then
                dictInsert paths nr.1 (splitPath file_name).1
              else if (".py".data).isSuffixOf file_name then
                dictInsert paths nr.1 file_name
              else paths)
          acc) name = lookupStr acc name := by
  induction l generalizing acc with
  | nil => rfl
  | cons p t ih =>
    obtain ⟨nm, res⟩ := p
    rw [List.foldl_cons]
    have hnm : nm ≠ name := h (nm, res) (List.mem_cons_self _ _)
    have ht : ∀ p ∈ t, p.1 ≠ name := fun p hp => h p (List.mem_cons_of_mem _ hp)
    rw [ih _ ht]
    cases res with
    | none => rfl
    | some fn2 =>
      simp only
      split
      · exact lookup_dictInsert_ne hnm
      · split
        · exact lookup_dictInsert_ne hnm
        · rfl

/-- C6 counterexample: a unit resolving to the single loadable file
/site/foo.so is left out of the index entirely. -/
theorem get_installed_omits_non_py :
    get_installed [("foo".data, some ("/site/foo.so".data))] = [] ∧
      lookupStr (get_installed [("foo".data, some ("/site/foo.so".data))]) "foo".data =
        none := ⟨rfl, rfl⟩

/-- C6 amended: every enumerated unit (with distinct names) whose location
resolves to a single .py file that is not a package initializer is recorded
in the index with that file as its root_path; units resolving to other
single files (native extensions and the like) are skipped. -/
theorem get_installed_records_py_file (mods : List (Str × Option Str)) (name fn : Str)
    (hnd : (mods.map Prod.fst).Nodup)
    (hmem : (name, some fn) ∈ mods)
    (hpy : (".py".data).isSuffixOf fn = true)
    (hini : ("__init__.py".data).isSuffixOf fn = false) :
    lookupStr (get_installed mods) name = some fn := by
  obtain ⟨l1, l2, rfl⟩ := List.append_of_mem hmem
  rw [List.map_append] at hnd
  have hnd2 := hnd.of_append_right
  rw [List.map_cons] at hnd2
  have hnotin : name ∉ l2.map Prod.fst := (List.nodup_cons.mp hnd2).1
  have h2 : ∀ p ∈ l2, p.1 ≠ name := fun p hp hcon =>
    hnotin (hcon ▸ List.mem_map_of_mem Prod.fst hp)
  rw [get_installed, List.foldl_append, List.foldl_cons]
  rw [get_installed_fold_frame l2 _ name h2]
  simp [hini, hpy, lookup_dictInsert_self]

/-- Witness for the amended C6: a plain .py module file is recorded as its
own root path. -/
theorem get_installed_records_py_file_witness :
    lookupStr (get_installed [("foo".data, some ("/site/foo.py".data))]) "foo".data =
      some ("/site/foo.py".data) :=
  get_installed_records_py_file [("foo".data, some ("/site/foo.py".data))]
    "foo".data ("/site/foo.py".data) (by decide) (by decide) (by decide) (by decide)

/-- C7 counterexample: lsof output that is not valid UTF-8 (a line carrying
byte 255) makes the snapshot raise instead of returning the empty set: the
decode step propagates its error and aborts the run. -/
theorem lsof_malformed_aborts_cx :
    lsofModel ⟨[[110, 47, 255]], 0⟩ = Except.error () := rfl

/-- C7 amended: when lsof produces no open-file lines at all — in
particular when the lsof command fails, since the pipeline's exit status is
cut's and check_output therefore does not raise — the snapshot degrades to
the empty set without aborting, whatever lsof's own exit code was; but
undecodable output is fatal. -/
theorem lsof_no_lines_empty (w : LsofWorld)
    (h : ∀ l ∈ w.lines, ([110, 47] : List Nat).isPrefixOf l = false) :
    lsofModel w = Except.ok [] := by
  have hg : grepStage w = [] := by
    rw [grepStage, List.filter_eq_nil_iff]
    intro a ha
    simp [h a ha]
  have hb : pipelineBytes w = [] := by
    rw [pipelineBytes, hg]
    rfl
  have hco : checkOutput w = Except.ok (pipelineBytes w) := rfl
  rw [lsofModel, hco, hb]
  rfl

/-- Witness for the amended C7: an lsof run with no output and exit code 1
still yields the empty snapshot. -/
theorem lsof_no_lines_empty_witness :
    lsofModel ⟨[], 1⟩ = Except.ok [] :=
  lsof_no_lines_empty ⟨[], 1⟩ (by decide)

/-- The destination option computed by path_map does not depend on the
ledger threaded through it. -/
theorem path_map_fst_totals (r : PackRunner) (gs : Str → Nat)
    (t1 t2 : List (Str × Nat)) (fn nm : Str) :
    (path_map r gs t1 fn nm).1 = (path_map r gs t2 fn nm).1 := by
  rw [path_map, path_map]
  by_cases hfb : fileBlacklisted r fn = true
  · rw [if_pos hfb, if_pos hfb]
  · rw [if_neg hfb, if_neg hfb]
    cases hw : which_module r.installed fn with
    | none => simp only [hw]
    | some p =>
      obtain ⟨m, s⟩ := p
      simp only [hw]
      by_cases hsc : r.stdlib.contains m = true
      · rw [if_pos hsc, if_pos hsc]
      · rw [if_neg hsc, if_neg hsc]
        by_cases hmb : modBlacklisted r m = true
        · rw [if_pos hmb, if_pos hmb]
        · rw [if_neg hmb, if_neg hmb]

/-- The pair list produced by the copy_list generator loop: each source is
paired with its ledger-independent destination. -/
theorem pmFold_pairs (r : PackRunner) (gs : Str → Nat) :
    ∀ (fs : List Str) (acc : List (Str × Option Str) × List (Str × Nat)),
      (pmFold r gs acc fs).1 =
        acc.1 ++ fs.map (fun f => (f, (path_map r gs [] f ("lib".data)).1)) := by
  intro fs
  induction fs with
  | nil => intro acc; simp [pmFold]
  | cons f t ih =>
    intro acc
    have hstep : pmFold r gs acc (f :: t) =
        pmFold r gs
          (acc.1 ++ [(f, (path_map r gs acc.2 f ("lib".data)).1)],
            (path_map r gs acc.2 f ("lib".data)).2) t := by
      rw [pmFold, pmFold, List.foldl_cons]
    rw [hstep, ih, path_map_fst_totals r gs acc.2 [] f ("lib".data)]
    simp

/-- Counting sources in the filtered pair list equals counting, in the
source list, the elements that match and have a destination. -/
theorem countP_filterMap_pairs (e : Str) (dest : Str → Option Str) :
    ∀ l : List Str,
      ((l.map (fun f => (f, dest f))).filterMap
          (fun c => match c.2 with | some dd => some (c.1, dd) | none => none)).countP
        (fun c => c.1 == e) =
      l.countP (fun g => g == e && (dest g).isSome) := by
  intro l
  induction l with
  | nil => rfl
  | cons f t ih =>
    rw [List.map_cons, List.filterMap_cons]
    cases hdf : dest f with
    | none =>
      simp only [List.countP_cons, hdf, Option.isSome_none, Bool.and_false]
      simpa using ih
    | some dd =>
      simp only [List.countP_cons, hdf, Option.isSome_some, Bool.and_true]
      rw [ih]

/-- A member of a duplicate-free list is counted exactly once. -/
theorem countP_beq_eq_one_of_nodup_mem {f : Str} {base : List Str}
    (hnd : base.Nodup) (hfb : f ∈ base) :
    base.countP (fun g => g == f) = 1 := by
  induction base with
  | nil => cases hfb
  | cons a t ih =>
    rw [List.countP_cons]
    rcases List.mem_cons.mp hfb with rfl | hft
    · have hnotin : f ∉ t := (List.nodup_cons.mp hnd).1
      have hz : t.countP (fun g => g == f) = 0 := by
        rw [List.countP_eq_zero]
        intro g hg
        simp only [beq_iff_eq]
        intro hc
        exact hnotin (hc ▸ hg)
      rw [hz]
      simp
    · have hne : a ≠ f := fun hc => (List.nodup_cons.mp hnd).1 (hc ▸ hft)
      rw [ih (List.nodup_cons.mp hnd).2 hft]
      simp [hne]

/-- C1 counterexample: a file that is both executed and newly opened
appears twice in the copy list — once from the opened pass, once from the
executed pass — so the claimed single entry is refuted. -/
theorem copy_list_duplicate_cx :
    (copy_list ⟨none, none, [("pkg".data, "/a/pkg".data)], []⟩ (fun _ => 0)
        (fun _ => true) (fun s => s) ["/a/pkg/m.py".data] [] ["/a/pkg/m.py".data]).1 =
      [("/a/pkg/m.py".data, "pkg/m.py".data), ("/a/pkg/m.py".data, "pkg/m.py".data)] ∧
    ((copy_list ⟨none, none, [("pkg".data, "/a/pkg".data)], []⟩ (fun _ => 0)
        (fun _ => true) (fun s => s) ["/a/pkg/m.py".data] [] ["/a/pkg/m.py".data]).1).countP
      (fun c => c.1 == "/a/pkg/m.py".data) = 2 := by decide

/-- C1 amended: a touched path that is both in the executed set and in the
open-handle difference, maps to a destination, and collides with no other
path under expansion, contributes exactly two entries to the copy list (one
per pass); the copy loop then materializes each entry, so it is copied
twice, not once. -/
theorem copy_list_both_sources_two_entries
    (r : PackRunner) (gs : Str → Nat) (isfile : Str → Bool) (expand : Str → Str)
    (files lstart lstop : List Str) (f d : Str)
    (hmemf : f ∈ files) (hmems : f ∈ lstop) (hnotst : f ∉ lstart)
    (hisf : isfile f = true)
    (hdest : (path_map r gs [] (expand f) ("lib".data)).1 = some d)
    (huniq : ∀ g, g ∈ files ∨ g ∈ lstop → expand g = expand f → g = f) :
    ((copy_list r gs isfile expand files lstart lstop).1).countP
      (fun c => c.1 == expand f) = 2 := by
  have hlist : (copy_list r gs isfile expand files lstart lstop).1 =
      ((((lstop.dedup.filter (fun g => !(lstart.contains g))).filter isfile).map expand).map
            (fun g => (g, (path_map r gs [] g ("lib".data)).1)) ++
          (((files.dedup.filter isfile).map expand).map
            (fun g => (g, (path_map r gs [] g ("lib".data)).1)))).filterMap
        (fun c => match c.2 with | some dd => some (c.1, dd) | none => none) := by
    rw [copy_list]
    simp only [pmFold_pairs, List.nil_append]
  rw [hlist, List.filterMap_append, List.countP_append]
  rw [countP_filterMap_pairs, countP_filterMap_pairs]
  rw [List.countP_map, List.countP_map]
  have hdsome : ((path_map r gs [] (expand f) ("lib".data)).1).isSome = true := by
    rw [hdest]
    rfl
  have hcount : ∀ base : List Str, base.Nodup → f ∈ base →
      (∀ g ∈ base, g ∈ files ∨ g ∈ lstop) →
      base.countP
          ((fun g => g == expand f &&
            ((path_map r gs [] g ("lib".data)).1).isSome) ∘ expand) = 1 := by
    intro base hnd hfb hsub
    have hcongr : base.countP
        ((fun g => g == expand f &&
          ((path_map r gs [] g ("lib".data)).1).isSome) ∘ expand) =
        base.countP (fun g => g == f) := by
      apply List.countP_congr
      intro g hg
      simp only [Function.comp_apply, Bool.and_eq_true, beq_iff_eq]
      constructor
      · intro hpred
        exact huniq g (hsub g hg) hpred.1
      · intro hgf
        subst hgf
        exact ⟨rfl, hdsome⟩
    rw [hcongr]
    exact countP_beq_eq_one_of_nodup_mem hnd hfb
  have hbase1 : f ∈ (lstop.dedup.filter (fun g => !(lstart.contains g))).filter isfile := by
    rw [List.mem_filter, List.mem_filter]
    refine ⟨⟨List.mem_dedup.mpr hmems, ?_⟩, hisf⟩
    simp [hnotst]
  have hbase2 : f ∈ files.dedup.filter isfile := by
    rw [List.mem_filter]
    exact ⟨List.mem_dedup.mpr hmemf, hisf⟩
  have hnd1 : ((lstop.dedup.filter (fun g => !(lstart.contains g))).filter isfile).Nodup :=
    ((List.nodup_dedup lstop).filter _).filter _
  have hnd2 : (files.dedup.filter isfile).Nodup := (List.nodup_dedup files).filter _
  have hsub1 : ∀ g ∈ (lstop.dedup.filter (fun g => !(lstart.contains g))).filter isfile,
      g ∈ files ∨ g ∈ lstop := by
    intro g hg
    rw [List.mem_filter, List.mem_filter] at hg
    exact Or.inr (List.mem_dedup.mp hg.1.1)
  have hsub2 : ∀ g ∈ files.dedup.filter isfile, g ∈ files ∨ g ∈ lstop := by
    intro g hg
    rw [List.mem_filter] at hg
    exact Or.inl (List.mem_dedup.mp hg.1)
  rw [hcount _ hnd1 hbase1 hsub1, hcount _ hnd2 hbase2 hsub2]

/-- Witness for the amended C1: with /a/pkg/m.py executed and opened and a
second unrelated executed file, the copy list holds exactly two entries for
it. -/
theorem copy_list_both_sources_two_entries_witness :
    ((copy_list ⟨none, none, [("pkg".data, "/a/pkg".data)], []⟩ (fun _ => 1)
        (fun _ => true) (fun s => s) ["/a/pkg/m.py".data, "/a/pkg/n.py".data] []
        ["/a/pkg/m.py".data]).1).countP
      (fun c => c.1 == (fun (s : Str) => s) "/a/pkg/m.py".data) = 2 :=
  copy_list_both_sources_two_entries
    ⟨none, none, [("pkg".data, "/a/pkg".data)], []⟩ (fun _ => 1)
    (fun _ => true) (fun s => s) ["/a/pkg/m.py".data, "/a/pkg/n.py".data] []
    ["/a/pkg/m.py".data] "/a/pkg/m.py".data ("pkg/m.py".data)
    (by decide) (by decide) (by decide) (by decide) (by decide) (fun g _ h => h)

end Packz
